import Mathlib

/-!
Verification of the media-cut core of the Gebo repository
(`src-tauri/src/ffmpeg.rs`, `src-tauri/src/streaming_encoder.rs`).

The Rust code works on `f64` seconds.  The model uses exact rationals `ℚ`
for the interval algebra (the spec's thresholds `0.001` and `0.005` become
`1/1000` and `5/1000`); the IEEE-special-value behaviour (NaN/infinities)
that matters for the sort comparator's `unwrap` is modelled separately with
an explicit extended-value type `F64` further below.
-/

/-- Cut range in seconds, mirroring `pub type Cut = (f64, f64)`. -/
abbrev Cut := ℚ × ℚ

/-- Comparison used by `cuts.sort_by(|a, b| a.0.partial_cmp(&b.0).unwrap())`:
sort ascending by start. -/
def cutLE (a b : Cut) : Prop := a.1 ≤ b.1

instance : DecidableRel cutLE := fun a b => inferInstanceAs (Decidable (a.1 ≤ b.1))

instance : IsTotal Cut cutLE := ⟨fun a b => le_total a.1 b.1⟩

instance : IsTrans Cut cutLE := ⟨fun _ _ _ h h' => le_trans h h'⟩

/-- Per-pair pass of `normalize_cuts`: swap endpoints if `end < start`, then
clamp `start` to `max start 0` and `end` to `min end duration`
(ffmpeg.rs lines 132-140). -/
def clampOne (duration : ℚ) (p : Cut) : Cut :=
  let q := if p.2 < p.1 then (p.2, p.1) else p
  (max q.1 0, min q.2 duration)

/-- The merge sweep of `normalize_cuts` (ffmpeg.rs lines 146-157), written as
structural recursion carrying the currently open last-merged pair `c`:
a following pair whose start is within `0.005` of the open end is merged,
taking the later end; otherwise the open pair is emitted. -/
def mergeRec : Cut → List Cut → List Cut
  | c, [] => [c]
  | c, (s, e) :: rest =>
    if s ≤ c.2 + 5/1000 then mergeRec (c.1, max c.2 e) rest
    else c :: mergeRec (s, e) rest

/-- Merge overlapping / near-adjacent cuts of a list sorted by start. -/
def mergeCuts : List Cut → List Cut
  | [] => []
  | c :: rest => mergeRec c rest

/-- Model of `fn normalize_cuts(cuts, duration)` (ffmpeg.rs lines 128-159):
empty on non-positive duration; otherwise swap/clamp each pair, drop
degenerate pairs (`end ≤ start + 0.001`), sort by start, and merge.
`insertionSort` stands in for Rust's stable `sort_by`; pairs tied on start
share that start, so the merge sweep gives the same output for every
start-sorted order of the ties. -/
def normalize_cuts (cuts : List Cut) (duration : ℚ) : List Cut :=
  if duration ≤ 0 then []
  else
    mergeCuts (List.insertionSort cutLE
      ((cuts.map (clampOne duration)).filter (fun p => decide (p.1 + 1/1000 < p.2))))

/-- The cursor walk of `to_kept_segments` (ffmpeg.rs lines 170-181): for each
cut emit the gap before it when positive and move the cursor to its end;
after the last cut emit the trailing segment when the cursor is before
`duration`. -/
def keptLoop : ℚ → List Cut → ℚ → List Cut
  | t, [], d => if t < d then [(t, d)] else []
  | t, (s, e) :: rest, d => (if t < s then [(t, s)] else []) ++ keptLoop e rest d

/-- Model of `fn to_kept_segments(cuts, duration)` (ffmpeg.rs lines 163-182). -/
def to_kept_segments (cuts : List Cut) (duration : ℚ) : List Cut :=
  if duration ≤ 0 then []
  else if cuts.isEmpty then [(0, duration)]
  else keptLoop 0 cuts duration

/-- Union of the closed intervals of a cut list, as a set of time points. -/
def cutsUnion (l : List Cut) : Set ℚ :=
  l.foldr (fun c A => Set.Icc c.1 c.2 ∪ A) ∅

/-- Bounds every normalized cut satisfies: within `[0, duration]` and longer
than the `0.001` degeneracy threshold. -/
def cutBnd (d : ℚ) (p : Cut) : Prop := 0 ≤ p.1 ∧ p.2 ≤ d ∧ p.1 + 1/1000 < p.2

/-- Separation of two normalized cuts: the later one starts more than
`0.005` after the earlier one ends. -/
def cutGap (a b : Cut) : Prop := a.2 + 5/1000 < b.1

/-! Basic facts about the clamp/filter/sort stages. -/

lemma cutBnd_of_mem_retained {cuts : List Cut} {d : ℚ} {p : Cut}
    (hp : p ∈ (cuts.map (clampOne d)).filter (fun p => decide (p.1 + 1/1000 < p.2))) :
    cutBnd d p := by
  rw [List.mem_filter] at hp
  obtain ⟨hmem, hpred⟩ := hp
  obtain ⟨q, -, hq⟩ := List.mem_map.mp hmem
  refine ⟨?_, ?_, by simpa using hpred⟩
  · rw [← hq]; simp [clampOne]
  · rw [← hq]; simp [clampOne]

lemma cutBnd_of_mem_sorted {cuts : List Cut} {d : ℚ} {p : Cut}
    (hp : p ∈ List.insertionSort cutLE
      ((cuts.map (clampOne d)).filter (fun p => decide (p.1 + 1/1000 < p.2)))) :
    cutBnd d p :=
  cutBnd_of_mem_retained ((List.mem_insertionSort cutLE).mp hp)

/-! Structure of the merge sweep. -/

lemma mergeRec_head_start : ∀ (l : List Cut) (c : Cut),
    ∃ e' t', mergeRec c l = (c.1, e') :: t' ∧ c.2 ≤ e'
  | [], c => ⟨c.2, [], by simp [mergeRec], le_refl _⟩
  | (s, e) :: rest, c => by
    by_cases h : s ≤ c.2 + 5/1000
    · obtain ⟨e', t', heq, hle⟩ := mergeRec_head_start rest (c.1, max c.2 e)
      exact ⟨e', t', by simp [mergeRec, h, heq], le_trans (le_max_left _ _) hle⟩
    · exact ⟨c.2, mergeRec (s, e) rest, by simp [mergeRec, h], le_refl _⟩

lemma mergeRec_wf {d : ℚ} : ∀ (l : List Cut) (c : Cut),
    cutBnd d c → (∀ p ∈ l, cutBnd d p) → (∀ p ∈ l, c.1 ≤ p.1) →
    List.Sorted cutLE l →
    (∀ p ∈ mergeRec c l, cutBnd d p) ∧ List.Chain' cutGap (mergeRec c l)
  | [], c, hc, _, _, _ => by simp [mergeRec, hc]
  | (s, e) :: rest, c, hc, hl, hcl, hsort => by
    have hse : cutBnd d (s, e) := hl _ (by simp)
    have hrest : ∀ p ∈ rest, cutBnd d p := fun p hp => hl p (by simp [hp])
    have hsort' : List.Sorted cutLE rest := hsort.of_cons
    have hsrest : ∀ p ∈ rest, s ≤ p.1 := fun p hp => List.rel_of_sorted_cons hsort p hp
    by_cases h : s ≤ c.2 + 5/1000
    · have hc' : cutBnd d (c.1, max c.2 e) := by
        refine ⟨hc.1, max_le hc.2.1 hse.2.1, lt_of_lt_of_le hc.2.2 (le_max_left _ _)⟩
      have hcl' : ∀ p ∈ rest, (c.1, max c.2 e).1 ≤ p.1 :=
        fun p hp => le_trans (hcl (s, e) (by simp)) (hsrest p hp)
      have := mergeRec_wf rest (c.1, max c.2 e) hc' hrest hcl' hsort'
      simpa [mergeRec, h] using this
    · push_neg at h
      have ⟨hb, hch⟩ := mergeRec_wf rest (s, e) hse hrest hsrest hsort'
      obtain ⟨e', t', heq, -⟩ := mergeRec_head_start rest (s, e)
      refine ⟨?_, ?_⟩
      · intro p hp
        rw [mergeRec] at hp
        simp only [if_neg (not_le.mpr h)] at hp
        rcases List.mem_cons.mp hp with hpc | hpr
        · exact hpc ▸ hc
        · exact hb p hpr
      · rw [mergeRec]
        simp only [if_neg (not_le.mpr h)]
        rw [List.chain'_cons']
        refine ⟨?_, hch⟩
        intro y hy
        rw [heq] at hy
        simp only [List.head?_cons, Option.mem_def, Option.some.injEq] at hy
        subst hy
        exact h

/-- The output of `normalize_cuts` satisfies the bounds and separation
invariants whenever the duration is positive. -/
lemma normalize_cuts_wf {C : List Cut} {d : ℚ} (hd : 0 < d) :
    (∀ p ∈ normalize_cuts C d, cutBnd d p) ∧
    List.Chain' cutGap (normalize_cuts C d) := by
  rw [normalize_cuts, if_neg (not_le.mpr hd)]
  set l := List.insertionSort cutLE
      ((C.map (clampOne d)).filter (fun p => decide (p.1 + 1/1000 < p.2))) with hl
  have hb : ∀ p ∈ l, cutBnd d p := fun p hp => cutBnd_of_mem_sorted hp
  have hs : List.Sorted cutLE l := List.sorted_insertionSort cutLE _
  match hll : l, hb, hs with
  | [], _, _ => simp [mergeCuts]
  | c :: rest, hb, hs =>
    exact mergeRec_wf rest c (hb c (by simp)) (fun p hp => hb p (by simp [hp]))
      (fun p hp => List.rel_of_sorted_cons hs p hp) hs.of_cons

/-- With the pointwise bound, a `Chain'` of separations upgrades to
`Pairwise`: the gap relation composes across an interval of positive
length. -/
lemma pairwise_gap_of_chain {d : ℚ} : ∀ {l : List Cut},
    (∀ p ∈ l, cutBnd d p) → List.Chain' cutGap l → List.Pairwise cutGap l
  | [], _, _ => List.Pairwise.nil
  | a :: l, hb, hc => by
    rw [List.chain'_cons'] at hc
    have hpl : List.Pairwise cutGap l :=
      pairwise_gap_of_chain (fun p hp => hb p (by simp [hp])) hc.2
    rw [List.pairwise_cons]
    refine ⟨?_, hpl⟩
    intro b hbmem
    match l, hbmem, hc, hpl with
    | c :: m, hbmem, hc, hpl =>
      have hac : cutGap a c := hc.1 c rfl
      rcases List.mem_cons.mp hbmem with hbc | hbm
      · exact hbc ▸ hac
      · have hcb : cutGap c b := (List.pairwise_cons.mp hpl).1 b hbm
        have hcc : cutBnd d c := hb c (by simp)
        have h1 : c.1 < c.2 := by
          have := hcc.2.2; linarith
        unfold cutGap at hac hcb ⊢
        linarith

/-- Strict start-sortedness follows from the separation and bound
invariants. -/
lemma pairwise_start_lt_of_gap {d : ℚ} {l : List Cut}
    (hb : ∀ p ∈ l, cutBnd d p) (hg : List.Pairwise cutGap l) :
    List.Pairwise (fun a b : Cut => a.1 < b.1) l := by
  refine hg.imp_of_mem ?_
  intro a b ha _ hab
  have hba := (hb a ha).2.2
  unfold cutGap at hab
  linarith

/-! Fixed points of normalization: a list already satisfying the invariants
passes through every stage unchanged. -/

lemma clampOne_eq_self {d : ℚ} {p : Cut} (hb : cutBnd d p) : clampOne d p = p := by
  obtain ⟨h0, hd, hlt⟩ := hb
  have hpp : p.1 < p.2 := by linarith
  rw [clampOne, if_neg (not_lt.mpr (le_of_lt hpp))]
  exact Prod.ext (max_eq_left h0) (min_eq_left hd)

lemma mergeRec_of_gaps : ∀ (l : List Cut) (c : Cut),
    List.Chain' cutGap (c :: l) → mergeRec c l = c :: l
  | [], c, _ => by simp [mergeRec]
  | (s, e) :: rest, c, hch => by
    rw [List.chain'_cons] at hch
    have hgap : c.2 + 5/1000 < s := hch.1
    rw [mergeRec, if_neg (not_le.mpr hgap), mergeRec_of_gaps rest (s, e) hch.2]

lemma sorted_of_inv {d : ℚ} {l : List Cut}
    (hb : ∀ p ∈ l, cutBnd d p) (hch : List.Chain' cutGap l) :
    List.Sorted cutLE l := by
  have := pairwise_start_lt_of_gap hb (pairwise_gap_of_chain hb hch)
  exact this.imp le_of_lt

lemma normalize_cuts_eq_self {l : List Cut} {d : ℚ} (hd : 0 < d)
    (hb : ∀ p ∈ l, cutBnd d p) (hch : List.Chain' cutGap l) :
    normalize_cuts l d = l := by
  rw [normalize_cuts, if_neg (not_le.mpr hd)]
  have h1 : l.map (clampOne d) = l := by
    have h := List.map_congr_left (fun p hp => clampOne_eq_self (hb p hp))
    simpa using h
  have h2 : (l.map (clampOne d)).filter (fun p => decide (p.1 + 1/1000 < p.2)) = l := by
    rw [h1]
    rw [List.filter_eq_self]
    intro p hp
    exact decide_eq_true (hb p hp).2.2
  rw [h2, (sorted_of_inv hb hch).insertionSort_eq]
  match l, hch with
  | [], _ => rfl
  | c :: rest, hch => exact mergeRec_of_gaps rest c hch

/-- Sanity anchors from the spec (§8): the inverted pair is corrected and the
degenerate pair dropped; a gap under 5 ms merges. -/
example : normalize_cuts [(5,3),(2,2 + 5/10000),(10,12)] 20 = [(3,5),(10,12)] := by
  with_unfolding_all decide

example : normalize_cuts [(1,5),(5 + 3/1000,8)] 20 = [(1,8)] := by
  with_unfolding_all decide

/-- C1: for every input cut list `C` and duration `d`: if `d ≤ 0` then
`normalize_cuts C d` is empty; otherwise every result pair lies in
`[0, d]` with `end > start + 0.001`, the result is sorted strictly
ascending by start, and consecutive cuts are separated by more than
`0.005`, so the list is non-overlapping. -/
theorem normalize_cuts_invariants (C : List Cut) (d : ℚ) (hd : 0 < d) :
    (∀ (C2 : List Cut) (d2 : ℚ), d2 ≤ 0 → normalize_cuts C2 d2 = []) ∧
    (∀ p ∈ normalize_cuts C d, 0 ≤ p.1 ∧ p.2 ≤ d ∧ p.1 + 1/1000 < p.2) ∧
    List.Pairwise (fun a b : Cut => a.1 < b.1) (normalize_cuts C d) ∧
    List.Chain' (fun a b : Cut => a.2 + 5/1000 < b.1) (normalize_cuts C d) := by
  obtain ⟨hb, hch⟩ := normalize_cuts_wf (C := C) hd
  refine ⟨fun C2 d2 h2 => by rw [normalize_cuts, if_pos h2], hb, ?_, hch⟩
  exact pairwise_start_lt_of_gap hb (pairwise_gap_of_chain hb hch)

/-- Witness for C1 at a concrete input. -/
theorem normalize_cuts_invariants_witness :
    0 < (20:ℚ) ∧
    ((∀ (C2 : List Cut) (d2 : ℚ), d2 ≤ 0 → normalize_cuts C2 d2 = []) ∧
     (∀ p ∈ normalize_cuts [(5,3),(2,2),(10,12)] 20,
        0 ≤ p.1 ∧ p.2 ≤ 20 ∧ p.1 + 1/1000 < p.2) ∧
     List.Pairwise (fun a b : Cut => a.1 < b.1) (normalize_cuts [(5,3),(2,2),(10,12)] 20) ∧
     List.Chain' (fun a b : Cut => a.2 + 5/1000 < b.1)
       (normalize_cuts [(5,3),(2,2),(10,12)] 20)) :=
  ⟨by decide, normalize_cuts_invariants [(5,3),(2,2),(10,12)] 20 (by decide)⟩

/-- C3: for every duration `d > 0` and cut list `C`, `normalize_cuts` is
idempotent. -/
theorem normalize_cuts_idempotent (C : List Cut) (d : ℚ) (hd : 0 < d) :
    normalize_cuts (normalize_cuts C d) d = normalize_cuts C d := by
  obtain ⟨hb, hch⟩ := normalize_cuts_wf (C := C) hd
  exact normalize_cuts_eq_self hd hb hch

/-- Witness for C3 at a concrete input. -/
theorem normalize_cuts_idempotent_witness :
    0 < (20:ℚ) ∧
    normalize_cuts (normalize_cuts [(5,3),(2,2),(10,12)] 20) 20 =
      normalize_cuts [(5,3),(2,2),(10,12)] 20 :=
  ⟨by decide, normalize_cuts_idempotent [(5,3),(2,2),(10,12)] 20 (by decide)⟩

/-! Kept-segment derivation: membership in interval unions, and the walk's
invariants. -/

lemma mem_cutsUnion {x : ℚ} : ∀ {l : List Cut},
    x ∈ cutsUnion l ↔ ∃ c ∈ l, c.1 ≤ x ∧ x ≤ c.2
  | [] => by simp [cutsUnion]
  | c :: l => by
    have ih := mem_cutsUnion (x := x) (l := l)
    simp only [cutsUnion, List.foldr_cons, Set.mem_union, Set.mem_Icc] at *
    constructor
    · rintro (hc | hl)
      · exact ⟨c, by simp, hc⟩
      · obtain ⟨c', hc', hx⟩ := ih.mp hl
        exact ⟨c', by simp [hc'], hx⟩
    · rintro ⟨c', hc', hx⟩
      rcases List.mem_cons.mp hc' with rfl | hmem
      · exact Or.inl hx
      · exact Or.inr (ih.mpr ⟨c', hmem, hx⟩)

lemma cutsUnion_cons (c : Cut) (l : List Cut) :
    cutsUnion (c :: l) = Set.Icc c.1 c.2 ∪ cutsUnion l := rfl

/-- Along a start-sorted chain with nondegenerate intervals, every later cut
starts at or after the first one ends. -/
lemma chain_le_all : ∀ (l : List Cut) (a : Cut),
    (∀ p ∈ l, p.1 < p.2) → List.Chain' (fun u v : Cut => u.2 ≤ v.1) (a :: l) →
    ∀ p ∈ l, a.2 ≤ p.1
  | [], _, _, _ => by simp
  | b :: m, a, hlt, hch => by
    rw [List.chain'_cons] at hch
    intro p hp
    rcases List.mem_cons.mp hp with rfl | hpm
    · exact hch.1
    · have hb := chain_le_all m b (fun q hq => hlt q (by simp [hq])) hch.2 p hpm
      have hbb : b.1 < b.2 := hlt b (by simp)
      linarith [hch.1]

/-- Every emitted kept segment lies in `[cursor, duration]` and has positive
length. -/
lemma keptLoop_bounds : ∀ (cuts : List Cut) (t d : ℚ),
    (∀ p ∈ cuts, p.1 < p.2 ∧ p.2 ≤ d) →
    List.Chain' (fun u v : Cut => u.2 ≤ v.1) cuts →
    (∀ p ∈ cuts.head?, t ≤ p.1) → t ≤ d →
    ∀ k ∈ keptLoop t cuts d, t ≤ k.1 ∧ k.1 < k.2 ∧ k.2 ≤ d
  | [], t, d, _, _, _, htd => by
    intro k hk
    rw [keptLoop] at hk
    by_cases h : t < d
    · rw [if_pos h] at hk
      simp only [List.mem_singleton] at hk
      subst hk
      exact ⟨le_refl _, h, le_refl _⟩
    · rw [if_neg h] at hk
      exact absurd hk (List.not_mem_nil k)
  | (s, e) :: rest, t, d, hcb, hch, hhd, htd => by
    have hse : s < e ∧ e ≤ d := hcb (s, e) (by simp)
    have hts : t ≤ s := hhd (s, e) (by simp)
    have hrest : ∀ p ∈ rest, p.1 < p.2 ∧ p.2 ≤ d := fun p hp => hcb p (by simp [hp])
    have hch' : List.Chain' (fun u v : Cut => u.2 ≤ v.1) rest := hch.tail
    have hhd' : ∀ p ∈ rest.head?, e ≤ p.1 := by
      intro p hp
      exact (List.chain'_cons'.mp hch).1 p hp
    intro k hk
    rw [keptLoop, List.mem_append] at hk
    rcases hk with hgap | hrec
    · by_cases h : t < s
      · rw [if_pos h] at hgap
        simp only [List.mem_singleton] at hgap
        subst hgap
        exact ⟨le_refl _, h, le_trans (le_of_lt hse.1) hse.2⟩
      · rw [if_neg h] at hgap
        exact absurd hgap (List.not_mem_nil k)
    · have ih := keptLoop_bounds rest e d hrest hch' hhd' hse.2 k hrec
      exact ⟨le_trans (le_trans hts (le_of_lt hse.1)) ih.1, ih.2⟩

/-- The kept segments are pairwise strictly separated (hence mutually
disjoint and sorted ascending). -/
lemma keptLoop_pairwise : ∀ (cuts : List Cut) (t d : ℚ),
    (∀ p ∈ cuts, p.1 < p.2 ∧ p.2 ≤ d) →
    List.Chain' (fun u v : Cut => u.2 ≤ v.1) cuts →
    (∀ p ∈ cuts.head?, t ≤ p.1) → t ≤ d →
    List.Pairwise (fun a b : Cut => a.2 < b.1) (keptLoop t cuts d)
  | [], t, d, _, _, _, _ => by
    rw [keptLoop]
    by_cases h : t < d
    · simp [h]
    · simp [h]
  | (s, e) :: rest, t, d, hcb, hch, hhd, htd => by
    have hse : s < e ∧ e ≤ d := hcb (s, e) (by simp)
    have hrest : ∀ p ∈ rest, p.1 < p.2 ∧ p.2 ≤ d := fun p hp => hcb p (by simp [hp])
    have hch' : List.Chain' (fun u v : Cut => u.2 ≤ v.1) rest := hch.tail
    have hhd' : ∀ p ∈ rest.head?, e ≤ p.1 := fun p hp => (List.chain'_cons'.mp hch).1 p hp
    have ih := keptLoop_pairwise rest e d hrest hch' hhd' hse.2
    rw [keptLoop]
    rw [List.pairwise_append]
    refine ⟨?_, ih, ?_⟩
    · by_cases h : t < s <;> simp [h]
    · intro a ha b hb
      by_cases h : t < s
      · rw [if_pos h] at ha
        simp only [List.mem_singleton] at ha
        subst ha
        have hbnd := keptLoop_bounds rest e d hrest hch' hhd' hse.2 b hb
        exact lt_of_lt_of_le hse.1 hbnd.1
      · rw [if_neg h] at ha
        exact absurd ha (List.not_mem_nil a)

/-- Every kept segment is disjoint from every cut: any cut either ends at or
before the segment starts, or begins at or after it ends. -/
lemma keptLoop_separated : ∀ (cuts : List Cut) (t d : ℚ),
    (∀ p ∈ cuts, p.1 < p.2 ∧ p.2 ≤ d) →
    List.Chain' (fun u v : Cut => u.2 ≤ v.1) cuts →
    (∀ p ∈ cuts.head?, t ≤ p.1) → t ≤ d →
    ∀ k ∈ keptLoop t cuts d, ∀ c ∈ cuts, c.2 ≤ k.1 ∨ k.2 ≤ c.1
  | [], _, _, _, _, _, _ => by simp
  | (s, e) :: rest, t, d, hcb, hch, hhd, htd => by
    have hse : s < e ∧ e ≤ d := hcb (s, e) (by simp)
    have hrest : ∀ p ∈ rest, p.1 < p.2 ∧ p.2 ≤ d := fun p hp => hcb p (by simp [hp])
    have hch' : List.Chain' (fun u v : Cut => u.2 ≤ v.1) rest := hch.tail
    have hhd' : ∀ p ∈ rest.head?, e ≤ p.1 := fun p hp => (List.chain'_cons'.mp hch).1 p hp
    have hall : ∀ p ∈ rest, e ≤ p.1 :=
      chain_le_all rest (s, e) (fun q hq => (hrest q hq).1) hch
    intro k hk c hc
    rw [keptLoop, List.mem_append] at hk
    rcases hk with hgap | hrec
    · by_cases h : t < s
      · rw [if_pos h] at hgap
        simp only [List.mem_singleton] at hgap
        subst hgap
        rcases List.mem_cons.mp hc with rfl | hcr
        · exact Or.inr (le_refl _)
        · exact Or.inr (le_trans (le_of_lt hse.1) (hall c hcr))
      · rw [if_neg h] at hgap
        exact absurd hgap (List.not_mem_nil k)
    · rcases List.mem_cons.mp hc with rfl | hcr
      · have hbnd := keptLoop_bounds rest e d hrest hch' hhd' hse.2 k hrec
        exact Or.inl hbnd.1
      · exact keptLoop_separated rest e d hrest hch' hhd' hse.2 k hrec c hcr

/-- Exact cover of the walk: between the two inclusions, the kept segments
and the cuts tile `(cursor, duration]`, staying inside `[cursor, duration]`. -/
lemma keptLoop_cover : ∀ (cuts : List Cut) (t d : ℚ),
    (∀ p ∈ cuts, p.1 < p.2 ∧ p.2 ≤ d) →
    List.Chain' (fun u v : Cut => u.2 ≤ v.1) cuts →
    (∀ p ∈ cuts.head?, t ≤ p.1) → t ≤ d →
    Set.Ioc t d ⊆ cutsUnion (keptLoop t cuts d) ∪ cutsUnion cuts ∧
    cutsUnion (keptLoop t cuts d) ∪ cutsUnion cuts ⊆ Set.Icc t d
  | [], t, d, _, _, _, htd => by
    constructor
    · intro x hx
      rw [keptLoop]
      have htdx : t < d := lt_of_lt_of_le hx.1 hx.2
      rw [if_pos htdx]
      left
      rw [mem_cutsUnion]
      exact ⟨(t, d), by simp, le_of_lt hx.1, hx.2⟩
    · intro x hx
      rcases hx with hk | hcuts
      · rw [keptLoop] at hk
        by_cases h : t < d
        · rw [if_pos h] at hk
          obtain ⟨c, hc, hx⟩ := mem_cutsUnion.mp hk
          simp only [List.mem_singleton] at hc
          subst hc
          exact ⟨hx.1, hx.2⟩
        · rw [if_neg h] at hk
          exact absurd hk (by simp [cutsUnion])
      · exact absurd hcuts (by simp [cutsUnion])
  | (s, e) :: rest, t, d, hcb, hch, hhd, htd => by
    have hse : s < e ∧ e ≤ d := hcb (s, e) (by simp)
    have hts : t ≤ s := hhd (s, e) (by simp)
    have hrest : ∀ p ∈ rest, p.1 < p.2 ∧ p.2 ≤ d := fun p hp => hcb p (by simp [hp])
    have hch' : List.Chain' (fun u v : Cut => u.2 ≤ v.1) rest := hch.tail
    have hhd' : ∀ p ∈ rest.head?, e ≤ p.1 := fun p hp => (List.chain'_cons'.mp hch).1 p hp
    obtain ⟨ih1, ih2⟩ := keptLoop_cover rest e d hrest hch' hhd' hse.2
    constructor
    · intro x hx
      rw [keptLoop]
      by_cases hxs : x ≤ s
      · have hts' : t < s := lt_of_lt_of_le hx.1 hxs
        left
        rw [if_pos hts', List.singleton_append, cutsUnion_cons]
        left
        exact ⟨le_of_lt hx.1, hxs⟩
      · push_neg at hxs
        by_cases hxe : x ≤ e
        · right
          rw [cutsUnion_cons]
          left
          exact ⟨le_of_lt hxs, hxe⟩
        · push_neg at hxe
          have := ih1 (Set.mem_Ioc.mpr ⟨hxe, hx.2⟩)
          rcases this with hk | hc
          · left
            by_cases h : t < s
            · rw [if_pos h, List.singleton_append, cutsUnion_cons]
              right
              exact hk
            · rw [if_neg h, List.nil_append]
              exact hk
          · right
            rw [cutsUnion_cons]
            right
            exact hc
    · intro x hx
      rcases hx with hk | hcuts
      · rw [keptLoop] at hk
        by_cases h : t < s
        · rw [if_pos h, List.singleton_append, cutsUnion_cons] at hk
          rcases hk with hgap | hrec
          · exact ⟨hgap.1, le_trans hgap.2 (le_trans (le_of_lt hse.1) hse.2)⟩
          · have := ih2 (Or.inl hrec)
            exact ⟨le_trans (le_trans hts (le_of_lt hse.1)) this.1, this.2⟩
        · rw [if_neg h, List.nil_append] at hk
          have := ih2 (Or.inl hk)
          exact ⟨le_trans (le_trans hts (le_of_lt hse.1)) this.1, this.2⟩
      · rw [cutsUnion_cons] at hcuts
        rcases hcuts with hhead | hrest'
        · exact ⟨le_trans hts hhead.1, le_trans hhead.2 hse.2⟩
        · have := ih2 (Or.inr hrest')
          exact ⟨le_trans (le_trans hts (le_of_lt hse.1)) this.1, this.2⟩

lemma cutsUnion_nil : cutsUnion [] = ∅ := rfl

/-- C2: for `d > 0` and any cut list produced by `normalize_cuts` over `d`,
`to_kept_segments` returns segments sorted ascending and mutually
disjoint whose union together with the union of the cuts exactly covers
`[0, d]`; for `d ≤ 0` it returns the empty list; for an empty cut list
it returns the single segment `(0, d)`; and if the cuts cover the whole
timeline it returns the empty list. -/
theorem to_kept_segments_spec (C : List Cut) (d : ℚ) (hd : 0 < d) :
    (∀ (cs : List Cut) (d2 : ℚ), d2 ≤ 0 → to_kept_segments cs d2 = []) ∧
    (normalize_cuts C d = [] → to_kept_segments (normalize_cuts C d) d = [(0, d)]) ∧
    List.Pairwise (fun a b : Cut => a.2 < b.1) (to_kept_segments (normalize_cuts C d) d) ∧
    cutsUnion (to_kept_segments (normalize_cuts C d) d) ∪ cutsUnion (normalize_cuts C d)
      = Set.Icc 0 d ∧
    (cutsUnion (normalize_cuts C d) = Set.Icc 0 d →
      to_kept_segments (normalize_cuts C d) d = []) := by
  obtain ⟨hwf, hgap⟩ := normalize_cuts_wf (C := C) hd
  set N := normalize_cuts C d with hNdef
  have htriv : ∀ (cs : List Cut) (d2 : ℚ), d2 ≤ 0 → to_kept_segments cs d2 = [] :=
    fun cs d2 h2 => by rw [to_kept_segments, if_pos h2]
  have hcb : ∀ p ∈ N, p.1 < p.2 ∧ p.2 ≤ d := by
    intro p hp
    obtain ⟨-, h2, h3⟩ := hwf p hp
    exact ⟨by linarith, h2⟩
  have hch : List.Chain' (fun u v : Cut => u.2 ≤ v.1) N :=
    hgap.imp (fun a b hab => by unfold cutGap at hab; linarith)
  have hhd : ∀ p ∈ N.head?, (0:ℚ) ≤ p.1 := by
    intro p hp
    exact (hwf p (List.mem_of_mem_head? hp)).1
  by_cases hN : N = []
  · rw [hN]
    have hk : to_kept_segments [] d = [(0, d)] := by
      rw [to_kept_segments, if_neg (not_le.mpr hd)]
      simp
    refine ⟨htriv, fun _ => hk, ?_, ?_, ?_⟩
    · rw [hk]; simp
    · rw [hk, cutsUnion_cons, cutsUnion_nil]
      simp
    · intro hcov
      rw [cutsUnion_nil] at hcov
      exact absurd (hcov ▸ Set.mem_Icc.mpr ⟨le_refl 0, le_of_lt hd⟩) (Set.not_mem_empty 0)
  · have hne : N.isEmpty = false := by
      rw [List.isEmpty_eq_false_iff_exists_mem]
      match N, hN with
      | c :: rest, _ => exact ⟨c, by simp⟩
    have hkeq : to_kept_segments N d = keptLoop 0 N d := by
      rw [to_kept_segments, if_neg (not_le.mpr hd), hne]
      simp
    obtain ⟨hc1, hc2⟩ := keptLoop_cover N 0 d hcb hch hhd (le_of_lt hd)
    refine ⟨htriv, fun h => absurd h hN, ?_, ?_, ?_⟩
    · rw [hkeq]
      exact keptLoop_pairwise N 0 d hcb hch hhd (le_of_lt hd)
    · rw [hkeq]
      apply Set.Subset.antisymm
      · intro x hx
        rcases hx with hk | hc
        · exact hc2 (Or.inl hk)
        · exact hc2 (Or.inr hc)
      · intro x hx
        rcases eq_or_lt_of_le hx.1 with hx0 | hx0
        · subst hx0
          match N, hN, hcb, hhd with
          | (s, e) :: rest, _, hcb, hhd =>
            have hs0 : (0:ℚ) ≤ s := hhd (s, e) (by simp)
            have hse : s < e ∧ e ≤ d := hcb (s, e) (by simp)
            rcases lt_or_eq_of_le hs0 with hpos | hzero
            · left
              rw [keptLoop, if_pos hpos, List.singleton_append, cutsUnion_cons]
              left
              exact ⟨le_refl 0, le_of_lt hpos⟩
            · right
              rw [mem_cutsUnion]
              refine ⟨(s, e), by simp, ?_, ?_⟩
              · exact le_of_eq hzero.symm
              · exact le_trans (le_of_eq hzero) (le_of_lt hse.1)
        · exact hc1 (Set.mem_Ioc.mpr ⟨hx0, hx.2⟩)
    · intro hcov
      rw [hkeq]
      match hK : keptLoop 0 N d with
      | [] => rfl
      | k :: ks =>
        exfalso
        have hkmem : k ∈ keptLoop 0 N d := by rw [hK]; simp
        have hkb := keptLoop_bounds N 0 d hcb hch hhd (le_of_lt hd) k hkmem
        set m : ℚ := (k.1 + k.2) / 2 with hm
        have hm1 : k.1 < m := by rw [hm]; linarith [hkb.2.1]
        have hm2 : m < k.2 := by rw [hm]; linarith [hkb.2.1]
        have hmIcc : m ∈ Set.Icc (0:ℚ) d :=
          ⟨le_trans hkb.1 (le_of_lt hm1), le_trans (le_of_lt hm2) hkb.2.2⟩
        rw [← hcov, mem_cutsUnion] at hmIcc
        obtain ⟨c, hcN, hcm⟩ := hmIcc
        rcases keptLoop_separated N 0 d hcb hch hhd (le_of_lt hd) k hkmem c hcN with h | h
        · linarith [hcm.2]
        · linarith [hcm.1]

/-- Witness for C2 at a concrete input. -/
theorem to_kept_segments_spec_witness :
    0 < (10:ℚ) ∧
    ((∀ (cs : List Cut) (d2 : ℚ), d2 ≤ 0 → to_kept_segments cs d2 = []) ∧
     (normalize_cuts [(2,5)] 10 = [] →
        to_kept_segments (normalize_cuts [(2,5)] 10) 10 = [(0, 10)]) ∧
     List.Pairwise (fun a b : Cut => a.2 < b.1)
       (to_kept_segments (normalize_cuts [(2,5)] 10) 10) ∧
     cutsUnion (to_kept_segments (normalize_cuts [(2,5)] 10) 10) ∪
        cutsUnion (normalize_cuts [(2,5)] 10) = Set.Icc 0 10 ∧
     (cutsUnion (normalize_cuts [(2,5)] 10) = Set.Icc 0 10 →
        to_kept_segments (normalize_cuts [(2,5)] 10) 10 = [])) :=
  ⟨by decide, to_kept_segments_spec [(2,5)] 10 (by decide)⟩

/-! Filter graph synthesizer (`build_filter_complex`, ffmpeg.rs lines
185-207).  The emitted program text is modelled structurally: each loop
iteration pushes one video-trim / audio-trim pair whose rendered form is
`[0:v]trim=start=<s>:end=<e>,setpts=PTS-STARTPTS[v<i>];`
`[0:a]atrim=start=<s>:end=<e>,asetpts=PTS-STARTPTS,aresample=...[a<i>];`
and one label into each of `v_labels` / `a_labels`; the final push is the
single concat line with `n = kept.len()` and outputs `[outv][outa]`. -/

structure TrimPair where
  vStart : ℚ
  vEnd : ℚ
  vLabel : ℕ
  aStart : ℚ
  aEnd : ℚ
  aLabel : ℕ
deriving DecidableEq

structure FilterGraph where
  trims : List TrimPair
  vLabels : List ℕ
  aLabels : List ℕ
  concatN : ℕ
  outStreams : String × String
deriving DecidableEq

/-- One loop iteration of `build_filter_complex`: the enumerated segment
`(i, (s, e))` becomes a trim pair using the same endpoints for the video
and the audio sub-stream, labelled `v i` / `a i`. -/
def trimOf (ic : ℕ × Cut) : TrimPair :=
  ⟨ic.2.1, ic.2.2, ic.1, ic.2.1, ic.2.2, ic.1⟩

def fgStep (acc : List TrimPair × List ℕ × List ℕ) (ic : ℕ × Cut) :
    List TrimPair × List ℕ × List ℕ :=
  (acc.1 ++ [trimOf ic], acc.2.1 ++ [ic.1], acc.2.2 ++ [ic.1])

/-- Model of `fn build_filter_complex(kept)`: fold the enumerated kept
segments through `fgStep`, then append the concat stage. -/
def build_filter_complex (kept : List Cut) : FilterGraph :=
  let built := kept.enum.foldl fgStep ([], [], [])
  { trims := built.1, vLabels := built.2.1, aLabels := built.2.2,
    concatN := kept.length, outStreams := ("outv", "outa") }

lemma fg_foldl : ∀ (l : List (ℕ × Cut)) (acc : List TrimPair × List ℕ × List ℕ),
    l.foldl fgStep acc =
      (acc.1 ++ l.map trimOf, acc.2.1 ++ l.map Prod.fst, acc.2.2 ++ l.map Prod.fst)
  | [], acc => by simp [fgStep]
  | ic :: l, acc => by
    rw [List.foldl_cons, fg_foldl l]
    simp [fgStep]

/-- C6: for every non-empty kept-segment list of length `N`,
`build_filter_complex` emits for each segment `i` one trim pair whose
video and audio operations use exactly that segment's endpoints and
label `i`, in index order with nothing reordered, dropped or merged;
followed by exactly one concat stage with `n = N` over labels
`0..N-1` in order, producing the two named outputs `outv` and `outa`. -/
theorem build_filter_complex_spec (kept : List Cut) (hne : kept ≠ []) :
    (build_filter_complex kept).trims.length = kept.length ∧
    (∀ i : ℕ, ((build_filter_complex kept).trims)[i]? =
       (kept[i]?).map (fun c => ⟨c.1, c.2, i, c.1, c.2, i⟩)) ∧
    (build_filter_complex kept).vLabels = List.range kept.length ∧
    (build_filter_complex kept).aLabels = List.range kept.length ∧
    (build_filter_complex kept).concatN = kept.length ∧
    (build_filter_complex kept).outStreams = ("outv", "outa") ∧
    0 < (build_filter_complex kept).concatN := by
  have hb : build_filter_complex kept =
      { trims := kept.enum.map trimOf,
        vLabels := kept.enum.map Prod.fst,
        aLabels := kept.enum.map Prod.fst,
        concatN := kept.length, outStreams := ("outv", "outa") } := by
    rw [build_filter_complex, fg_foldl]
    simp
  have hfst : kept.enum.map Prod.fst = List.range kept.length := by
    rw [List.enum_eq_enumFrom, List.enumFrom_map_fst, List.range_eq_range']
  refine ⟨?_, ?_, ?_, ?_, ?_, ?_, ?_⟩
  · rw [hb]; simp
  · intro i
    rw [hb]
    simp only [List.getElem?_map, List.enum_eq_enumFrom, List.getElem?_enumFrom]
    cases kept[i]? with
    | none => rfl
    | some c => simp [trimOf]
  · rw [hb, hfst]
  · rw [hb, hfst]
  · rw [hb]
  · rw [hb]
  · rw [hb]
    simpa using List.length_pos.mpr hne

/-- Witness for C6 at a concrete input. -/
theorem build_filter_complex_spec_witness :
    ([(0,2),(3,5)] : List Cut) ≠ [] ∧
    ((build_filter_complex [(0,2),(3,5)]).trims.length = ([(0,2),(3,5)] : List Cut).length ∧
     (∀ i : ℕ, ((build_filter_complex [(0,2),(3,5)]).trims)[i]? =
        (([(0,2),(3,5)] : List Cut)[i]?).map (fun c => ⟨c.1, c.2, i, c.1, c.2, i⟩)) ∧
     (build_filter_complex [(0,2),(3,5)]).vLabels = List.range 2 ∧
     (build_filter_complex [(0,2),(3,5)]).aLabels = List.range 2 ∧
     (build_filter_complex [(0,2),(3,5)]).concatN = 2 ∧
     (build_filter_complex [(0,2),(3,5)]).outStreams = ("outv", "outa") ∧
     0 < (build_filter_complex [(0,2),(3,5)]).concatN) :=
  ⟨by decide, build_filter_complex_spec [(0,2),(3,5)] (by decide)⟩

/-! Export orchestrator (`export_with_cuts`, ffmpeg.rs lines 224-299) and the
temporary-path helper (`temp_output_path`, lines 210-218).

Paths are modelled as a parent directory plus an optional final
component; the stem/extension split follows the documented semantics of
`Path::file_stem` / `Path::extension` (portion before / after the final
dot, where a lone leading dot marks a hidden file with no extension).

The orchestrator's externally visible behaviour is modelled as a result
together with the list of filesystem-affecting actions it performs, in
order, and a small filesystem semantics interpreting those actions over
the destination and temporary files.  The environment record fixes the
outcome of each external step (tool lookup, probe, copy, encoder spawn
and exit, rename). -/

/-- Position of the final dot in a file name, if any. -/
def lastDotIdx (cs : List Char) : Option ℕ :=
  match cs.reverse.findIdx? (fun c => c = '.') with
  | none => none
  | some j => some (cs.length - 1 - j)

/-- File-name split mirroring `Path::file_stem` / `Path::extension`: no dot
or only a leading dot gives the whole name as stem and no extension;
otherwise the name splits at the final dot. -/
def fileStemExt (name : String) : String × Option String :=
  match lastDotIdx name.data with
  | none => (name, none)
  | some 0 => (name, none)
  | some i => (⟨name.data.take i⟩, some ⟨name.data.drop (i + 1)⟩)

/-- Path model: the directory (None mirrors `Path::parent()` returning
`None`) and the final component (None mirrors a path with no file name). -/
structure FPath where
  dir : Option String
  fileName : Option String
deriving DecidableEq

/-- Model of `fn temp_output_path(output)`: sibling path
`<stem>.tmp.<ext>` in the same directory, with fallbacks `"."`, `"out"`
and `"mp4"` for a missing parent, stem or extension. -/
def temp_output_path (p : FPath) : FPath :=
  let stem := (p.fileName.map (fun n => (fileStemExt n).1)).getD "out"
  let ext := (p.fileName.bind (fun n => (fileStemExt n).2)).getD "mp4"
  { dir := some (p.dir.getD "."), fileName := some (stem ++ ".tmp." ++ ext) }

inductive ExportError where
  | toolNotFound
  | copyFailed
  | probeFailed
  | allContentCut
  | spawnFailed
  | encodeFailed (code : Option ℤ)
  | renameFailed
deriving DecidableEq

/-- Contents a file can hold in the model: the source bytes, a complete
encode, or a partial encode abandoned by a failing encoder. -/
inductive FContent where
  | src
  | encoded
  | partialData
deriving DecidableEq

/-- Filesystem-affecting steps of one export, in program order. -/
inductive ExportAction where
  | copySrcToDst (ok : Bool)
  | runEncoder (tmp : FPath) (graph : FilterGraph) (ok : Bool)
  | removeTmp (tmp : FPath)
  | renameTmpToDst (tmp : FPath) (ok : Bool)
deriving DecidableEq

/-- Outcomes of the external steps, fixed up front: whether the tools are on
the PATH, whether `fs::copy` succeeds, the probed duration (None models a
probe failure), whether the encoder can be spawned, whether it exits
zero, its exit code as observed on failure, and whether the final rename
succeeds. -/
structure ExportEnv where
  ffmpegOk : Bool
  copyOk : Bool
  probeDuration : Option ℚ
  spawnOk : Bool
  encodeOk : Bool
  encodeCode : Option ℤ
  renameOk : Bool

/-- Model of `fn export_with_cuts(input, output, ranges_to_cut)`: the
result paired with the ordered list of filesystem actions performed. -/
def export_with_cuts (env : ExportEnv) (dst : FPath) (ranges_to_cut : List Cut) :
    Except ExportError Unit × List ExportAction :=
  if ¬ env.ffmpegOk then (.error .toolNotFound, [])
  else if ranges_to_cut.isEmpty then
    (if env.copyOk then .ok () else .error .copyFailed, [.copySrcToDst env.copyOk])
  else
    match env.probeDuration with
    | none => (.error .probeFailed, [])
    | some duration =>
      let normalized := normalize_cuts ranges_to_cut duration
      if normalized.isEmpty then
        (if env.copyOk then .ok () else .error .copyFailed, [.copySrcToDst env.copyOk])
      else
        let kept := to_kept_segments normalized duration
        if kept.isEmpty then (.error .allContentCut, [])
        else
          let graph := build_filter_complex kept
          let tmp := temp_output_path dst
          if ¬ env.spawnOk then (.error .spawnFailed, [])
          else if ¬ env.encodeOk then
            (.error (.encodeFailed env.encodeCode),
             [.runEncoder tmp graph false, .removeTmp tmp])
          else
            (if env.renameOk then .ok () else .error .renameFailed,
             [.runEncoder tmp graph true, .renameTmpToDst tmp env.renameOk])

/-- Observable filesystem state: contents of the destination and of the
temporary sibling, if they exist. -/
structure FSState where
  dst : Option FContent
  tmp : Option FContent
deriving DecidableEq

def applyAction (fs : FSState) : ExportAction → FSState
  | .copySrcToDst ok => if ok then { fs with dst := some .src } else fs
  | .runEncoder _ _ ok => { fs with tmp := some (if ok then .encoded else .partialData) }
  | .removeTmp _ => { fs with tmp := none }
  | .renameTmpToDst _ ok => if ok then { dst := fs.tmp, tmp := none } else fs

def runFS (fs : FSState) (acts : List ExportAction) : FSState :=
  acts.foldl applyAction fs

lemma isEmpty_false_of_ne {α : Type _} {l : List α} (h : l ≠ []) : l.isEmpty = false := by
  cases l with
  | nil => exact absurd rfl h
  | cons a t => rfl

/-- C4: with the tools available, a non-empty cut list, a successful probe,
and a normalization that leaves no kept segment, `export_with_cuts`
fails with the all-content-cut error having performed no filesystem
action at all: the encoder is never invoked and the destination is
untouched. -/
theorem export_with_cuts_all_content_cut (env : ExportEnv) (dst : FPath)
    (cuts : List Cut) (d : ℚ)
    (h1 : env.ffmpegOk = true) (h2 : cuts ≠ [])
    (h3 : env.probeDuration = some d)
    (h4 : normalize_cuts cuts d ≠ [])
    (h5 : to_kept_segments (normalize_cuts cuts d) d = []) :
    export_with_cuts env dst cuts = (.error .allContentCut, []) ∧
    ∀ fs : FSState, runFS fs (export_with_cuts env dst cuts).2 = fs := by
  have heq : export_with_cuts env dst cuts = (.error .allContentCut, []) := by
    rw [export_with_cuts]
    simp [h1, isEmpty_false_of_ne h2, h3, isEmpty_false_of_ne h4, h5]
  exact ⟨heq, fun fs => by rw [heq]; rfl⟩

/-- Witness for C4: cutting `[(0, d)]` against probed duration `d`. -/
theorem export_with_cuts_all_content_cut_witness :
    ((⟨true, true, some 10, true, true, none, true⟩ : ExportEnv).ffmpegOk = true ∧
     ([((0:ℚ),(10:ℚ))] : List Cut) ≠ [] ∧
     (⟨true, true, some 10, true, true, none, true⟩ : ExportEnv).probeDuration = some 10 ∧
     normalize_cuts [(0,10)] 10 ≠ [] ∧
     to_kept_segments (normalize_cuts [(0,10)] 10) 10 = []) ∧
    (export_with_cuts ⟨true, true, some 10, true, true, none, true⟩
        ⟨some "/tmp", some "a.mp4"⟩ [(0,10)] = (.error .allContentCut, []) ∧
     ∀ fs : FSState, runFS fs (export_with_cuts ⟨true, true, some 10, true, true, none, true⟩
        ⟨some "/tmp", some "a.mp4"⟩ [(0,10)]).2 = fs) :=
  ⟨⟨rfl, by decide, rfl, by with_unfolding_all decide, by with_unfolding_all decide⟩,
   export_with_cuts_all_content_cut ⟨true, true, some 10, true, true, none, true⟩
     ⟨some "/tmp", some "a.mp4"⟩ [(0,10)] 10 rfl (by decide) rfl
     (by with_unfolding_all decide) (by with_unfolding_all decide)⟩

/-- C5: on the encode path the encoder always writes to the sibling
temporary path `<stem>.tmp.<ext>` in the destination's directory; if
the encoder exits non-zero the temporary file is deleted, the error
carries the exit status, and the destination keeps its prior contents
at every step; if the encoder succeeds the temporary path is renamed
over the destination, and at every intermediate step the destination
holds either its prior contents or the complete encode — never the
partial encoder output. -/
theorem export_with_cuts_atomic (env : ExportEnv) (dst : FPath)
    (cuts : List Cut) (d : ℚ)
    (h1 : env.ffmpegOk = true) (h2 : cuts ≠ [])
    (h3 : env.probeDuration = some d)
    (h4 : normalize_cuts cuts d ≠ [])
    (h5 : to_kept_segments (normalize_cuts cuts d) d ≠ [])
    (h6 : env.spawnOk = true) :
    ((temp_output_path dst).dir = some (dst.dir.getD ".") ∧
     (temp_output_path dst).fileName =
       some ((dst.fileName.map (fun n => (fileStemExt n).1)).getD "out"
              ++ ".tmp." ++ (dst.fileName.bind (fun n => (fileStemExt n).2)).getD "mp4") ∧
     ∀ t g ok, ExportAction.runEncoder t g ok ∈ (export_with_cuts env dst cuts).2 →
       t = temp_output_path dst) ∧
    (env.encodeOk = false →
      (export_with_cuts env dst cuts).1 = .error (.encodeFailed env.encodeCode) ∧
      ∀ fs : FSState,
        (runFS fs (export_with_cuts env dst cuts).2).dst = fs.dst ∧
        (runFS fs (export_with_cuts env dst cuts).2).tmp = none ∧
        ∀ k : ℕ, (runFS fs ((export_with_cuts env dst cuts).2.take k)).dst = fs.dst) ∧
    (env.encodeOk = true → env.renameOk = true →
      (export_with_cuts env dst cuts).1 = .ok () ∧
      ∀ fs : FSState,
        runFS fs (export_with_cuts env dst cuts).2 = ⟨some .encoded, none⟩ ∧
        ∀ k : ℕ, (runFS fs ((export_with_cuts env dst cuts).2.take k)).dst = fs.dst ∨
          (runFS fs ((export_with_cuts env dst cuts).2.take k)).dst = some .encoded) := by
  set tmp := temp_output_path dst with htmp
  set graph := build_filter_complex (to_kept_segments (normalize_cuts cuts d) d) with hg
  refine ⟨⟨by rw [htmp, temp_output_path], by rw [htmp, temp_output_path], ?_⟩, ?_, ?_⟩
  · intro t g ok hmem
    by_cases he : env.encodeOk = true
    · have heq : export_with_cuts env dst cuts =
          ((if env.renameOk then .ok () else .error .renameFailed),
           [.runEncoder tmp graph true, .renameTmpToDst tmp env.renameOk]) := by
        rw [export_with_cuts]
        simp [h1, isEmpty_false_of_ne h2, h3, isEmpty_false_of_ne h4,
          isEmpty_false_of_ne h5, h6, he]
      rw [heq] at hmem
      simp only [List.mem_cons, List.mem_singleton, List.not_mem_nil, or_false] at hmem
      rcases hmem with h | h
      · exact ((ExportAction.runEncoder.injEq _ _ _ _ _ _).mp h).1
      · exact absurd h (by simp)
    · have he' : env.encodeOk = false := by
        cases henc : env.encodeOk
        · rfl
        · exact absurd henc he
      have heq : export_with_cuts env dst cuts =
          (.error (.encodeFailed env.encodeCode),
           [.runEncoder tmp graph false, .removeTmp tmp]) := by
        rw [export_with_cuts]
        simp [h1, isEmpty_false_of_ne h2, h3, isEmpty_false_of_ne h4,
          isEmpty_false_of_ne h5, h6, he']
      rw [heq] at hmem
      simp only [List.mem_cons, List.mem_singleton, List.not_mem_nil, or_false] at hmem
      rcases hmem with h | h
      · exact ((ExportAction.runEncoder.injEq _ _ _ _ _ _).mp h).1
      · exact absurd h (by simp)
  · intro he
    have heq : export_with_cuts env dst cuts =
        (.error (.encodeFailed env.encodeCode),
         [.runEncoder tmp graph false, .removeTmp tmp]) := by
      rw [export_with_cuts]
      simp [h1, isEmpty_false_of_ne h2, h3, isEmpty_false_of_ne h4,
        isEmpty_false_of_ne h5, h6, he]
    rw [heq]
    refine ⟨rfl, fun fs => ⟨rfl, rfl, ?_⟩⟩
    intro k
    match k with
    | 0 => rfl
    | 1 => rfl
    | (n+2) =>
      rw [List.take_of_length_le (by simp)]
      rfl
  · intro he hr
    have heq : export_with_cuts env dst cuts =
        (.ok (), [.runEncoder tmp graph true, .renameTmpToDst tmp true]) := by
      rw [export_with_cuts]
      simp [h1, isEmpty_false_of_ne h2, h3, isEmpty_false_of_ne h4,
        isEmpty_false_of_ne h5, h6, he, hr]
    rw [heq]
    refine ⟨rfl, fun fs => ⟨?_, ?_⟩⟩
    · simp [runFS, applyAction]
    · intro k
      match k with
      | 0 => left; rfl
      | 1 => left; rfl
      | (n+2) =>
        right
        rw [List.take_of_length_le (by simp)]
        simp [runFS, applyAction]

/-- Witness for C5 at a concrete environment and destination. -/
theorem export_with_cuts_atomic_witness :
    ((⟨true, true, some 10, true, false, some 1, true⟩ : ExportEnv).ffmpegOk = true ∧
     ([((2:ℚ),(5:ℚ))] : List Cut) ≠ [] ∧
     (⟨true, true, some 10, true, false, some 1, true⟩ : ExportEnv).probeDuration = some 10 ∧
     normalize_cuts [(2,5)] 10 ≠ [] ∧
     to_kept_segments (normalize_cuts [(2,5)] 10) 10 ≠ [] ∧
     (⟨true, true, some 10, true, false, some 1, true⟩ : ExportEnv).spawnOk = true) ∧
    ((temp_output_path ⟨some "/v", some "out.mp4"⟩).dir =
       some ((⟨some "/v", some "out.mp4"⟩ : FPath).dir.getD ".") ∧
     (temp_output_path ⟨some "/v", some "out.mp4"⟩).fileName =
       some (((⟨some "/v", some "out.mp4"⟩ : FPath).fileName.map
               (fun n => (fileStemExt n).1)).getD "out"
              ++ ".tmp." ++ ((⟨some "/v", some "out.mp4"⟩ : FPath).fileName.bind
               (fun n => (fileStemExt n).2)).getD "mp4") ∧
     ∀ t g ok, ExportAction.runEncoder t g ok ∈
         (export_with_cuts ⟨true, true, some 10, true, false, some 1, true⟩
           ⟨some "/v", some "out.mp4"⟩ [(2,5)]).2 →
       t = temp_output_path ⟨some "/v", some "out.mp4"⟩) ∧
    ((⟨true, true, some 10, true, false, some 1, true⟩ : ExportEnv).encodeOk = false →
      (export_with_cuts ⟨true, true, some 10, true, false, some 1, true⟩
         ⟨some "/v", some "out.mp4"⟩ [(2,5)]).1 =
        .error (.encodeFailed (⟨true, true, some 10, true, false, some 1, true⟩ :
          ExportEnv).encodeCode) ∧
      ∀ fs : FSState,
        (runFS fs (export_with_cuts ⟨true, true, some 10, true, false, some 1, true⟩
           ⟨some "/v", some "out.mp4"⟩ [(2,5)]).2).dst = fs.dst ∧
        (runFS fs (export_with_cuts ⟨true, true, some 10, true, false, some 1, true⟩
           ⟨some "/v", some "out.mp4"⟩ [(2,5)]).2).tmp = none ∧
        ∀ k : ℕ, (runFS fs ((export_with_cuts ⟨true, true, some 10, true, false, some 1, true⟩
           ⟨some "/v", some "out.mp4"⟩ [(2,5)]).2.take k)).dst = fs.dst) ∧
    ((⟨true, true, some 10, true, false, some 1, true⟩ : ExportEnv).encodeOk = true →
      (⟨true, true, some 10, true, false, some 1, true⟩ : ExportEnv).renameOk = true →
      (export_with_cuts ⟨true, true, some 10, true, false, some 1, true⟩
         ⟨some "/v", some "out.mp4"⟩ [(2,5)]).1 = .ok () ∧
      ∀ fs : FSState,
        runFS fs (export_with_cuts ⟨true, true, some 10, true, false, some 1, true⟩
           ⟨some "/v", some "out.mp4"⟩ [(2,5)]).2 = ⟨some .encoded, none⟩ ∧
        ∀ k : ℕ, (runFS fs ((export_with_cuts ⟨true, true, some 10, true, false, some 1, true⟩
           ⟨some "/v", some "out.mp4"⟩ [(2,5)]).2.take k)).dst = fs.dst ∨
          (runFS fs ((export_with_cuts ⟨true, true, some 10, true, false, some 1, true⟩
           ⟨some "/v", some "out.mp4"⟩ [(2,5)]).2.take k)).dst = some .encoded) :=
  ⟨⟨rfl, by decide, rfl, by with_unfolding_all decide, by with_unfolding_all decide, rfl⟩,
   export_with_cuts_atomic ⟨true, true, some 10, true, false, some 1, true⟩
     ⟨some "/v", some "out.mp4"⟩ [(2,5)] 10 rfl (by decide) rfl
     (by with_unfolding_all decide) (by with_unfolding_all decide) rfl⟩

/-- C8: with the tools available and a copy that succeeds, an empty cut
list — or one whose normalization against the probed duration is empty —
makes `export_with_cuts` copy the source over the destination (the
destination then holds the source bytes) and return success, with no
encoder invocation and no graph consumed. -/
theorem export_with_cuts_fast_path (env : ExportEnv) (dst : FPath)
    (cuts : List Cut) (d : ℚ)
    (h1 : env.ffmpegOk = true) (h7 : env.copyOk = true)
    (h8 : cuts = [] ∨ (env.probeDuration = some d ∧ normalize_cuts cuts d = [])) :
    (export_with_cuts env dst cuts).1 = .ok () ∧
    (export_with_cuts env dst cuts).2 = [.copySrcToDst true] ∧
    (∀ fs : FSState, runFS fs (export_with_cuts env dst cuts).2 =
       { fs with dst := some .src }) ∧
    ∀ t g ok, ExportAction.runEncoder t g ok ∉ (export_with_cuts env dst cuts).2 := by
  have heq : export_with_cuts env dst cuts = (.ok (), [.copySrcToDst true]) := by
    rcases h8 with hnil | ⟨hp, hnorm⟩
    · rw [export_with_cuts]
      simp [h1, hnil, h7]
    · by_cases hnil : cuts = []
      · rw [export_with_cuts]
        simp [h1, hnil, h7]
      · rw [export_with_cuts]
        simp [h1, isEmpty_false_of_ne hnil, hp, hnorm, h7]
  rw [heq]
  refine ⟨rfl, rfl, fun fs => ?_, fun t g ok => ?_⟩
  · simp [runFS, applyAction]
  · simp

/-- Witness for C8: a degenerate cut list that normalizes to nothing. -/
theorem export_with_cuts_fast_path_witness :
    ((⟨true, true, some 10, true, true, none, true⟩ : ExportEnv).ffmpegOk = true ∧
     (⟨true, true, some 10, true, true, none, true⟩ : ExportEnv).copyOk = true ∧
     (([((3:ℚ),(3:ℚ))] : List Cut) = [] ∨
       ((⟨true, true, some 10, true, true, none, true⟩ : ExportEnv).probeDuration = some 10 ∧
        normalize_cuts [(3,3)] 10 = []))) ∧
    ((export_with_cuts ⟨true, true, some 10, true, true, none, true⟩
        ⟨some "/v", some "b.mp4"⟩ [(3,3)]).1 = .ok () ∧
     (export_with_cuts ⟨true, true, some 10, true, true, none, true⟩
        ⟨some "/v", some "b.mp4"⟩ [(3,3)]).2 = [.copySrcToDst true] ∧
     (∀ fs : FSState, runFS fs (export_with_cuts ⟨true, true, some 10, true, true, none, true⟩
        ⟨some "/v", some "b.mp4"⟩ [(3,3)]).2 = { fs with dst := some .src }) ∧
     ∀ t g ok, ExportAction.runEncoder t g ok ∉
       (export_with_cuts ⟨true, true, some 10, true, true, none, true⟩
        ⟨some "/v", some "b.mp4"⟩ [(3,3)]).2) :=
  ⟨⟨rfl, rfl, Or.inr ⟨rfl, by with_unfolding_all decide⟩⟩,
   export_with_cuts_fast_path ⟨true, true, some 10, true, true, none, true⟩
     ⟨some "/v", some "b.mp4"⟩ [(3,3)] 10 rfl rfl
     (Or.inr ⟨rfl, by with_unfolding_all decide⟩)⟩

/-! Probe adapter (`ffprobe`, ffmpeg.rs lines 28-117).  The external process
invocation and the serde JSON parse are modelled by a `ProcOutcome` input:
spawn failure, a non-zero exit, unparsable standard output, or a parsed
JSON shape.  Numeric string parsing models Rust's `str::parse` for plain
decimal literals (optional leading minus, digits, optional fractional
part), which covers every numeric string ffprobe emits for the fields
read here. -/

def splitOnChar (c : Char) : List Char → List (List Char)
  | [] => [[]]
  | x :: xs =>
    if x = c then [] :: splitOnChar c xs
    else
      match splitOnChar c xs with
      | [] => [[x]]
      | h :: t => (x :: h) :: t

def digitsVal (cs : List Char) : ℕ :=
  cs.foldl (fun acc c => acc * 10 + (c.toNat - '0'.toNat)) 0

/-- Parse a non-empty all-digit string, as Rust's unsigned `parse` does. -/
def digitsToNat? (cs : List Char) : Option ℕ :=
  if cs ≠ [] ∧ cs.all (fun c => c.isDigit) then some (digitsVal cs) else none

/-- Model of `str::parse::<f64>` restricted to plain decimal literals:
optional leading minus, an integer part, and an optional fractional
part, read exactly. -/
def parseFloat? (s : String) : Option ℚ :=
  let core := fun (cs : List Char) =>
    match splitOnChar '.' cs with
    | [i] => (digitsToNat? i).map (fun n => (n : ℚ))
    | [i, f] =>
      match digitsToNat? i, digitsToNat? f with
      | some a, some b => some ((a : ℚ) + (b : ℚ) / (10 : ℚ) ^ f.length)
      | _, _ => none
    | _ => none
  match s.data with
  | '-' :: rest => (core rest).map (fun q => -q)
  | cs => core cs

/-- One entry of the probed `streams` array; absent or mistyped JSON fields
are `none`. -/
structure StreamInfo where
  codecType : String
  width : Option ℕ
  height : Option ℕ
  rFrameRate : Option String
  codecName : Option String
  sampleRate : Option String
  channels : Option ℕ
deriving DecidableEq

/-- The parsed shape of ffprobe's JSON output. -/
structure FfprobeJson where
  durationStr : Option String
  formatName : Option String
  streams : List StreamInfo
deriving DecidableEq

/-- Outcome of running the external inspection tool: it could not be
launched, or it ran (with given exit success) and produced stdout that
either failed to parse as JSON (`none`) or parsed to the given shape. -/
inductive ProcOutcome where
  | spawnFailure
  | ran (exitOk : Bool) (stdoutJson : Option FfprobeJson)
deriving DecidableEq

inductive ProbeError where
  | toolNotFound
  | ffprobeFailed
  | invalidJson
  | noAudioStream
deriving DecidableEq

/-- Model of `pub struct Probe` (ffmpeg.rs lines 10-21); `u32`/`u8` fields
become naturals reduced mod `2^32` / `2^8` where the code casts. -/
structure Probe where
  duration : ℚ
  width : ℕ
  height : ℕ
  fps : ℚ
  audio_rate : ℕ
  audio_channels : ℕ
  v_codec : String
  a_codec : String
  container : String
deriving DecidableEq

/-- The frame-rate block of `ffprobe` (ffmpeg.rs lines 76-80): split the
rational on `/`, parse the numerator defaulting to 30 and the
denominator defaulting to 1 componentwise, and divide when the
denominator is positive, else fall back to 30. -/
def fpsOfRate (r : String) : ℚ :=
  let parts := splitOnChar '/' r.data
  let num := (parseFloat? ⟨(parts.get? 0).getD ('3' :: ['0'])⟩).getD 30
  let den := (parseFloat? ⟨(parts.get? 1).getD ['1']⟩).getD 1
  if 0 < den then num / den else 30

/-- Model of `pub fn ffprobe(input)` (ffmpeg.rs lines 28-117) over the
outcome of the external invocation. -/
def ffprobe (out : ProcOutcome) : Except ProbeError Probe :=
  match out with
  | .spawnFailure => .error .toolNotFound
  | .ran false _ => .error .ffprobeFailed
  | .ran true none => .error .invalidJson
  | .ran true (some j) =>
    let duration := (parseFloat? (j.durationStr.getD "0")).getD 0
    let container := j.formatName.getD ""
    let v? := j.streams.find? (fun s => s.codecType = "video")
    match j.streams.find? (fun s => s.codecType = "audio") with
    | none => .error .noAudioStream
    | some a =>
      let vfields :=
        match v? with
        | some v =>
          let fps := fpsOfRate (v.rFrameRate.getD "30/1")
          let w := (v.width.getD 0) % 2 ^ 32
          let h := (v.height.getD 0) % 2 ^ 32
          if w = 0 ∨ h = 0 then (0, 0, (0:ℚ), "none")
          else (w, h, fps, v.codecName.getD "h264")
        | none => (0, 0, 0, "none")
      .ok { duration := duration
            width := vfields.1
            height := vfields.2.1
            fps := vfields.2.2.1
            audio_rate :=
              match digitsToNat? (a.sampleRate.getD "48000").data with
              | some n => if n < 2 ^ 32 then n else 48000
              | none => 48000
            audio_channels := (a.channels.getD 2) % 2 ^ 8
            v_codec := vfields.2.2.2
            a_codec := a.codecName.getD "aac"
            container := container }

/-- Probe output whose video stream reports the malformed frame-rate
rational `"60/x"` together with nonzero dimensions and a valid audio
stream. -/
def c7CexJson : FfprobeJson :=
  { durationStr := some "12.5", formatName := some "mp4",
    streams :=
      [ { codecType := "video", width := some 640, height := some 480,
          rFrameRate := some "60/x", codecName := some "h264",
          sampleRate := none, channels := none },
        { codecType := "audio", width := none, height := none,
          rFrameRate := none, codecName := some "aac",
          sampleRate := some "44100", channels := some 2 } ] }

/-- Counterexample to C7 as stated: on the malformed rational `"60/x"` the
probe succeeds with `fps = 60`, not the claimed default of 30 — only the
unparsable component is defaulted (numerator to 30, denominator to 1). -/
theorem ffprobe_malformed_rate_not_30 :
    (ffprobe (.ran true (some c7CexJson))).toOption.map Probe.fps = some 60 ∧
    ¬ (ffprobe (.ran true (some c7CexJson))).toOption.map Probe.fps = some 30 := by
  constructor
  · with_unfolding_all decide
  · with_unfolding_all decide

/-- C7 (amended): the probe errors exactly on spawn failure, non-zero exit,
unparsable JSON, or a missing audio stream (an absent duration parses as
0 instead of failing); absent video, or zero reported width/height,
yields the audio-only quadruple `width = height = 0, fps = 0,
v_codec = "none"`; the frame-rate rational is defaulted componentwise —
unparsable numerator to 30, missing or unparsable denominator to 1, a
non-positive denominator forcing 30 — and missing sample rate or channel
count default to 48000 and 2. -/
theorem ffprobe_spec_amended :
    (ffprobe .spawnFailure = .error .toolNotFound) ∧
    (∀ js, ffprobe (.ran false js) = .error .ffprobeFailed) ∧
    (ffprobe (.ran true none) = .error .invalidJson) ∧
    (∀ j : FfprobeJson, j.streams.find? (fun s => s.codecType = "audio") = none →
      ffprobe (.ran true (some j)) = .error .noAudioStream) ∧
    (∀ (j : FfprobeJson) (a : StreamInfo),
      j.streams.find? (fun s => s.codecType = "audio") = some a →
      j.streams.find? (fun s => s.codecType = "video") = none →
      ∃ p, ffprobe (.ran true (some j)) = .ok p ∧
        p.width = 0 ∧ p.height = 0 ∧ p.fps = 0 ∧ p.v_codec = "none") ∧
    (∀ (j : FfprobeJson) (v a : StreamInfo),
      j.streams.find? (fun s => s.codecType = "video") = some v →
      j.streams.find? (fun s => s.codecType = "audio") = some a →
      ((v.width.getD 0) % 2 ^ 32 = 0 ∨ (v.height.getD 0) % 2 ^ 32 = 0) →
      ∃ p, ffprobe (.ran true (some j)) = .ok p ∧
        p.width = 0 ∧ p.height = 0 ∧ p.fps = 0 ∧ p.v_codec = "none") ∧
    (∀ (j : FfprobeJson) (a : StreamInfo),
      j.streams.find? (fun s => s.codecType = "audio") = some a →
      a.sampleRate = none → a.channels = none →
      ∃ p, ffprobe (.ran true (some j)) = .ok p ∧
        p.audio_rate = 48000 ∧ p.audio_channels = 2) ∧
    (∀ (j : FfprobeJson) (a : StreamInfo),
      j.streams.find? (fun s => s.codecType = "audio") = some a →
      j.durationStr = none →
      ∃ p, ffprobe (.ran true (some j)) = .ok p ∧ p.duration = 0) ∧
    (fpsOfRate "30/1" = 30 ∧ fpsOfRate "24/1" = 24 ∧ fpsOfRate "60/x" = 60 ∧
     fpsOfRate "x/2" = 15 ∧ fpsOfRate "x" = 30 ∧ fpsOfRate "7/0" = 30) ∧
    (∀ (j : FfprobeJson) (v a : StreamInfo),
      j.streams.find? (fun s => s.codecType = "video") = some v →
      j.streams.find? (fun s => s.codecType = "audio") = some a →
      ¬((v.width.getD 0) % 2 ^ 32 = 0 ∨ (v.height.getD 0) % 2 ^ 32 = 0) →
      ∃ p, ffprobe (.ran true (some j)) = .ok p ∧
        p.fps = fpsOfRate (v.rFrameRate.getD "30/1") ∧
        p.width = (v.width.getD 0) % 2 ^ 32 ∧
        p.height = (v.height.getD 0) % 2 ^ 32) := by
  refine ⟨rfl, fun js => rfl, rfl, ?_, ?_, ?_, ?_, ?_, ?_, ?_⟩
  · intro j h
    simp [ffprobe, h]
  · intro j a ha hv
    simp only [ffprobe, ha, hv]
    exact ⟨_, rfl, rfl, rfl, rfl, rfl⟩
  · intro j v a hv ha hz
    simp only [ffprobe, ha, hv]
    rw [if_pos hz]
    exact ⟨_, rfl, rfl, rfl, rfl, rfl⟩
  · intro j a ha hs hc
    simp only [ffprobe, ha, hs, hc]
    refine ⟨_, rfl, ?_, ?_⟩
    · with_unfolding_all rfl
    · with_unfolding_all rfl
  · intro j a ha hd
    simp only [ffprobe, ha, hd]
    refine ⟨_, rfl, ?_⟩
    with_unfolding_all rfl
  · refine ⟨?_, ?_, ?_, ?_, ?_, ?_⟩ <;> with_unfolding_all decide
  · intro j v a hv ha hz
    simp only [ffprobe, ha, hv]
    rw [if_neg hz]
    exact ⟨_, rfl, rfl, rfl, rfl⟩

/-- Probe output with no audio stream at all. -/
def c7NoAudioJson : FfprobeJson :=
  { durationStr := some "5", formatName := some "mp4",
    streams :=
      [ { codecType := "video", width := some 320, height := some 240,
          rFrameRate := some "30/1", codecName := some "h264",
          sampleRate := none, channels := none } ] }

/-- Witness for the amended C7: instantiating the no-audio-stream failure
case at a concrete probe output. -/
theorem ffprobe_spec_amended_witness :
    (c7NoAudioJson.streams.find? (fun s => s.codecType = "audio") = none) ∧
    ffprobe (.ran true (some c7NoAudioJson)) = .error .noAudioStream :=
  ⟨by with_unfolding_all decide,
   (ffprobe_spec_amended).2.2.2.1 c7NoAudioJson (by with_unfolding_all decide)⟩

/-! Streaming segment encoder (`streaming_encoder.rs`).  The worker loop of
`encode_segment_streaming` (lines 79-108) is deterministic given the
sequence of reads from the encoder's stdout and the point at which the
consumer detaches, so it is modelled as the trace of events it performs:
`n` is the number of 64 KiB frames the encoder produces before EOF and
`a` the number of chunks the consumer accepts before dropping the
receiver.  Each iteration reads a frame and attempts to send it; a
failed send kills the child and breaks, EOF breaks, and the loop is
always followed by the single wait on the child. -/

inductive ChunkEv where
  | readChunk
  | sendChunk
  | killEncoder
  | waitEncoder
deriving DecidableEq

/-- The read/send loop of `encode_segment_streaming`: EOF ends it; a send
rejected by a detached consumer kills the encoder process and ends it;
otherwise the chunk is forwarded and the loop continues. -/
def streamLoop : ℕ → ℕ → List ChunkEv
  | 0, _ => []
  | _+1, 0 => [.readChunk, .killEncoder]
  | n+1, a+1 => .readChunk :: .sendChunk :: streamLoop n a

/-- Model of `pub fn encode_segment_streaming` (streaming_encoder.rs lines
24-124): rejects a non-positive duration, otherwise runs the worker loop
and finally waits on the child. -/
def encode_segment_streaming (start_time end_time : ℚ) (chunks accepts : ℕ) :
    Except Unit (List ChunkEv) :=
  if end_time - start_time ≤ 0 then .error ()
  else .ok (streamLoop chunks accepts ++ [.waitEncoder])

/-- Per-segment behaviour seen by `generate_streaming_preview`: whether the
segment's encoder run succeeds and how many chunks it produces. -/
structure SegSpec where
  ok : Bool
  chunks : ℕ
deriving DecidableEq

/-- The multi-segment loop of `generate_streaming_preview`
(streaming_encoder.rs lines 137-164): returns the indices of segments
started, in execution order, with the terminal result.  A consumer that
stops accepting mid-segment ends the loop with `Ok` (the source's
`return Ok(())`); a failed segment propagates its error; otherwise the
next segment starts with the remaining acceptance budget. -/
def previewLoop : ℕ → ℕ → List SegSpec → List ℕ × Except Unit Unit
  | _, _, [] => ([], .ok ())
  | i, accepts, seg :: rest =>
    if seg.chunks ≤ accepts then
      if seg.ok then
        let r := previewLoop (i + 1) (accepts - seg.chunks) rest
        (i :: r.1, r.2)
      else ([i], .error ())
    else ([i], .ok ())

/-- Model of `pub fn generate_streaming_preview` (streaming_encoder.rs lines
127-167): rejects an empty segment list, otherwise runs the segments
strictly in order. -/
def generate_streaming_preview (segs : List SegSpec) (accepts : ℕ) :
    Except Unit (List ℕ × Except Unit Unit) :=
  if segs.isEmpty then .error () else .ok (previewLoop 0 accepts segs)

lemma streamLoop_detach : ∀ n a : ℕ, a < n →
    ∃ pre, streamLoop n a = pre ++ [ChunkEv.readChunk, ChunkEv.killEncoder] ∧
      ChunkEv.killEncoder ∉ pre ∧
      pre.count ChunkEv.readChunk = a ∧ pre.count ChunkEv.sendChunk = a
  | 0, a, h => absurd h (Nat.not_lt_zero a)
  | n+1, 0, _ => ⟨[], rfl, by simp, rfl, rfl⟩
  | n+1, a+1, h => by
    obtain ⟨pre, heq, hmem, hr, hs⟩ := streamLoop_detach n a (Nat.lt_of_succ_lt_succ h)
    refine ⟨.readChunk :: .sendChunk :: pre, ?_, ?_, ?_, ?_⟩
    · rw [streamLoop, heq]
      simp
    · simp only [List.mem_cons, not_or]
      exact ⟨by simp, by simp, hmem⟩
    · rw [List.count_cons, List.count_cons]
      simp [hr]
    · rw [List.count_cons, List.count_cons]
      simp [hs]

lemma previewLoop_range : ∀ (segs : List SegSpec) (i accepts : ℕ),
    ∃ k, (previewLoop i accepts segs).1 = List.range' i k ∧ k ≤ segs.length
  | [], _, _ => ⟨0, rfl, Nat.zero_le _⟩
  | seg :: rest, i, accepts => by
    rw [previewLoop]
    by_cases hc : seg.chunks ≤ accepts
    · by_cases hok : seg.ok
      · obtain ⟨k, hk, hlen⟩ := previewLoop_range rest (i + 1) (accepts - seg.chunks)
        refine ⟨k + 1, ?_, by simpa using Nat.succ_le_succ hlen⟩
        simp only [if_pos hc, if_pos hok]
        rw [List.range'_succ, ← hk]
      · refine ⟨1, ?_, by simp⟩
        simp [if_pos hc, hok, List.range']
    · refine ⟨1, ?_, by simp⟩
      simp [if_neg hc, List.range']

lemma previewLoop_stop_at_bad : ∀ (segs : List SegSpec) (i accepts j : ℕ)
    (hj : j < segs.length), (segs.get ⟨j, hj⟩).ok = false →
    (previewLoop i accepts segs).1.length ≤ j + 1
  | [], _, _, j, hj, _ => absurd hj (by simp)
  | seg :: rest, i, accepts, 0, hj, hbad => by
    rw [previewLoop]
    by_cases hc : seg.chunks ≤ accepts
    · simp only [List.get] at hbad
      simp [if_pos hc, hbad]
    · simp [if_neg hc]
  | seg :: rest, i, accepts, j+1, hj, hbad => by
    rw [previewLoop]
    by_cases hc : seg.chunks ≤ accepts
    · by_cases hok : seg.ok
      · simp only [if_pos hc, if_pos hok, List.length_cons]
        have := previewLoop_stop_at_bad rest (i + 1) (accepts - seg.chunks) j
          (Nat.lt_of_succ_lt_succ hj) (by simpa using hbad)
        omega
      · simp [if_pos hc, hok]
    · simp [if_neg hc]

lemma previewLoop_stop_at_detach : ∀ (segs : List SegSpec) (i accepts j : ℕ),
    j < segs.length →
    accepts < ((segs.take (j+1)).map SegSpec.chunks).sum →
    (previewLoop i accepts segs).1.length ≤ j + 1
  | [], _, _, j, hj, _ => absurd hj (by simp)
  | seg :: rest, i, accepts, 0, hj, hdet => by
    rw [previewLoop]
    have hc : ¬ seg.chunks ≤ accepts := by
      simp only [List.take, List.map_cons, List.sum_cons] at hdet
      simp at hdet
      omega
    simp [if_neg hc]
  | seg :: rest, i, accepts, j+1, hj, hdet => by
    rw [previewLoop]
    by_cases hc : seg.chunks ≤ accepts
    · by_cases hok : seg.ok
      · simp only [if_pos hc, if_pos hok, List.length_cons]
        have hdet' : accepts - seg.chunks < ((rest.take (j+1)).map SegSpec.chunks).sum := by
          simp only [List.take, List.map_cons, List.sum_cons] at hdet
          omega
        have := previewLoop_stop_at_detach rest (i + 1) (accepts - seg.chunks) j
          (Nat.lt_of_succ_lt_succ hj) hdet'
        omega
      · simp [if_pos hc, hok]
    · simp [if_neg hc]

/-- C9: a consumer that detaches after accepting `a` of `n` chunks makes the
worker read exactly one more frame, kill the still-running encoder, and
perform nothing afterwards except the final wait — no further reads;
and the multi-segment driver starts segments strictly in caller order
as an initial prefix of indices, never starting a segment after one
that failed or after the consumer detached. -/
theorem streaming_cancellation_and_order (start_time end_time : ℚ) (n a accepts : ℕ)
    (segs : List SegSpec)
    (hd : 0 < end_time - start_time) (hdet : a < n) (hsegs : segs ≠ []) :
    (encode_segment_streaming start_time end_time n a =
       .ok (streamLoop n a ++ [.waitEncoder])) ∧
    (∃ pre, streamLoop n a ++ [.waitEncoder] =
       pre ++ [ChunkEv.readChunk, ChunkEv.killEncoder, ChunkEv.waitEncoder] ∧
       ChunkEv.killEncoder ∉ pre ∧
       pre.count ChunkEv.readChunk = a ∧ pre.count ChunkEv.sendChunk = a) ∧
    (generate_streaming_preview segs accepts = .ok (previewLoop 0 accepts segs)) ∧
    (∃ k, (previewLoop 0 accepts segs).1 = List.range k ∧ k ≤ segs.length) ∧
    (∀ j (hj : j < segs.length), (segs.get ⟨j, hj⟩).ok = false →
       (previewLoop 0 accepts segs).1.length ≤ j + 1) ∧
    (∀ j (hj : j < segs.length),
       accepts < ((segs.take (j+1)).map SegSpec.chunks).sum →
       (previewLoop 0 accepts segs).1.length ≤ j + 1) := by
  refine ⟨?_, ?_, ?_, ?_, ?_, ?_⟩
  · rw [encode_segment_streaming, if_neg (not_le.mpr hd)]
  · obtain ⟨pre, heq, hmem, hr, hs⟩ := streamLoop_detach n a hdet
    exact ⟨pre, by rw [heq]; simp, hmem, hr, hs⟩
  · rw [generate_streaming_preview, if_neg]
    simp [List.isEmpty_iff, hsegs]
  · obtain ⟨k, hk, hlen⟩ := previewLoop_range segs 0 accepts
    exact ⟨k, by rw [hk, List.range_eq_range'], hlen⟩
  · exact fun j hj => previewLoop_stop_at_bad segs 0 accepts j hj
  · exact fun j hj => previewLoop_stop_at_detach segs 0 accepts j hj

/-- Witness for C9 at concrete chunk counts and segments. -/
theorem streaming_cancellation_and_order_witness :
    (0 < (1:ℚ) - 0 ∧ 1 < 3 ∧ ([⟨true, 2⟩, ⟨false, 1⟩] : List SegSpec) ≠ []) ∧
    ((encode_segment_streaming 0 1 3 1 = .ok (streamLoop 3 1 ++ [.waitEncoder])) ∧
     (∃ pre, streamLoop 3 1 ++ [.waitEncoder] =
        pre ++ [ChunkEv.readChunk, ChunkEv.killEncoder, ChunkEv.waitEncoder] ∧
        ChunkEv.killEncoder ∉ pre ∧
        pre.count ChunkEv.readChunk = 1 ∧ pre.count ChunkEv.sendChunk = 1) ∧
     (generate_streaming_preview [⟨true, 2⟩, ⟨false, 1⟩] 5 =
        .ok (previewLoop 0 5 [⟨true, 2⟩, ⟨false, 1⟩])) ∧
     (∃ k, (previewLoop 0 5 [⟨true, 2⟩, ⟨false, 1⟩]).1 = List.range k ∧ k ≤ 2) ∧
     (∀ j (hj : j < ([⟨true, 2⟩, ⟨false, 1⟩] : List SegSpec).length),
        (([⟨true, 2⟩, ⟨false, 1⟩] : List SegSpec).get ⟨j, hj⟩).ok = false →
        (previewLoop 0 5 [⟨true, 2⟩, ⟨false, 1⟩]).1.length ≤ j + 1) ∧
     (∀ j (hj : j < ([⟨true, 2⟩, ⟨false, 1⟩] : List SegSpec).length),
        5 < ((([⟨true, 2⟩, ⟨false, 1⟩] : List SegSpec).take (j+1)).map SegSpec.chunks).sum →
        (previewLoop 0 5 [⟨true, 2⟩, ⟨false, 1⟩]).1.length ≤ j + 1)) :=
  ⟨⟨by with_unfolding_all decide, by decide, by decide⟩,
   streaming_cancellation_and_order 0 1 3 1 5 [⟨true, 2⟩, ⟨false, 1⟩]
     (by with_unfolding_all decide) (by decide) (by decide)⟩

/-! Safety of the sort comparator in `normalize_cuts` (ffmpeg.rs line 145).
Here `f64` is modelled with its special values explicit: NaN, the two
infinities, and finite values (finite arithmetic is exact rather than
rounded, which is immaterial to NaN propagation).  The comparison,
`max`, `min` and addition operators follow IEEE-754 and Rust `f64`
semantics: comparisons involving NaN are false, `partial_cmp` is `none`
exactly when an operand is NaN, and `f64::max`/`f64::min` return the
other operand when one is NaN. -/

inductive F64 where
  | nan
  | negInf
  | posInf
  | fin (q : ℚ)
deriving DecidableEq

def F64.isNaN : F64 → Bool
  | .nan => true
  | _ => false

/-- IEEE strict less-than: false on NaN operands. -/
def fLt : F64 → F64 → Bool
  | .nan, _ => false
  | _, .nan => false
  | .negInf, .negInf => false
  | .negInf, _ => true
  | _, .negInf => false
  | .posInf, _ => false
  | .fin _, .posInf => true
  | .fin a, .fin b => decide (a < b)

/-- IEEE less-or-equal: false on NaN operands. -/
def fLe (a b : F64) : Bool :=
  match a, b with
  | .nan, _ => false
  | _, .nan => false
  | x, y => fLt x y || decide (x = y)

/-- Rust `f64::max`: returns the other operand when one is NaN. -/
def fMax : F64 → F64 → F64
  | .nan, b => b
  | a, .nan => a
  | a, b => if fLt a b then b else a

/-- Rust `f64::min`: returns the other operand when one is NaN. -/
def fMin : F64 → F64 → F64
  | .nan, b => b
  | a, .nan => a
  | a, b => if fLt b a then b else a

/-- IEEE addition, exact on finite operands: NaN propagates, and opposite
infinities produce NaN. -/
def fAdd : F64 → F64 → F64
  | .nan, _ => .nan
  | _, .nan => .nan
  | .posInf, .negInf => .nan
  | .negInf, .posInf => .nan
  | .posInf, _ => .posInf
  | _, .posInf => .posInf
  | .negInf, _ => .negInf
  | _, .negInf => .negInf
  | .fin a, .fin b => .fin (a + b)

/-- Rust `f64::partial_cmp`: `none` exactly when an operand is NaN. -/
def partialCmpF (a b : F64) : Option Ordering :=
  if a.isNaN || b.isNaN then none
  else some (if fLt a b then .lt else if fLt b a then .gt else .eq)

/-- The swap/clamp pass of `normalize_cuts` over `f64` values (ffmpeg.rs
lines 132-140). -/
def clampOneF (duration : F64) (p : F64 × F64) : F64 × F64 :=
  let q := if fLt p.2 p.1 then (p.2, p.1) else p
  (fMax q.1 (.fin 0), fMin q.2 duration)

/-- The clamped-and-retained list that `normalize_cuts` sorts (ffmpeg.rs
lines 132-145): the state of `cuts` right before `sort_by` runs. -/
def retainedF (cuts : List (F64 × F64)) (duration : F64) : List (F64 × F64) :=
  (cuts.map (clampOneF duration)).filter (fun p => fLt (fAdd p.1 (.fin (1/1000))) p.2)

/-- The sort order used by the comparator once `partial_cmp` is known to be
defined: not-greater on starts. -/
def cutLEF (a b : F64 × F64) : Prop := partialCmpF a.1 b.1 ≠ some Ordering.gt

instance : DecidableRel cutLEF :=
  fun a b => inferInstanceAs (Decidable (partialCmpF a.1 b.1 ≠ some Ordering.gt))

def mergeRecF : (F64 × F64) → List (F64 × F64) → List (F64 × F64)
  | c, [] => [c]
  | c, (s, e) :: rest =>
    if fLe s (fAdd c.2 (.fin (5/1000))) then mergeRecF (c.1, fMax c.2 e) rest
    else c :: mergeRecF (s, e) rest

def mergeCutsF : List (F64 × F64) → List (F64 × F64)
  | [] => []
  | c :: rest => mergeRecF c rest

/-- The full `normalize_cuts` over the `f64` model, total by construction:
the sort runs with the not-greater order that the Rust comparator
implements whenever its `unwrap` succeeds. -/
def normalize_cuts_f (cuts : List (F64 × F64)) (duration : F64) : List (F64 × F64) :=
  if fLe duration (.fin 0) then []
  else mergeCutsF (List.insertionSort cutLEF (retainedF cuts duration))

lemma fMax_zero_ne_nan : ∀ a : F64, fMax a (.fin 0) ≠ F64.nan := by
  intro a
  cases a <;> simp [fMax, fLt] <;> split <;> simp

lemma isNaN_false_of_ne {a : F64} (h : a ≠ F64.nan) : a.isNaN = false := by
  cases a <;> simp_all [F64.isNaN]

lemma fLt_nan_right : ∀ x : F64, fLt x F64.nan = false := by
  intro x
  cases x <;> rfl

/-- C10: the comparator's `unwrap` in `normalize_cuts` is unreachable for
every input, including NaN or infinite endpoints and a NaN duration:
every pair surviving the clamp-and-retain stage has a non-NaN start
(`s.max(0.0)` is never NaN — a NaN start becomes `0.0` — and a pair
whose clamped end is NaN fails the degeneracy filter), so
`partial_cmp` on any two starts handed to the sort is always defined. -/
theorem normalize_cuts_comparator_total (cuts : List (F64 × F64)) (duration : F64) :
    (∀ p ∈ retainedF cuts duration, p.1 ≠ F64.nan) ∧
    (∀ p ∈ retainedF cuts duration, ∀ q ∈ retainedF cuts duration,
       (partialCmpF p.1 q.1).isSome = true) ∧
    (∀ e : F64, (clampOneF duration (F64.nan, e)).1 = F64.fin 0) ∧
    (∀ p : F64 × F64, p.2 = F64.nan → p ∉ retainedF cuts duration) := by
  have hstart : ∀ p ∈ retainedF cuts duration, p.1 ≠ F64.nan := by
    intro p hp
    rw [retainedF, List.mem_filter] at hp
    obtain ⟨hm, -⟩ := hp
    obtain ⟨q, -, hq⟩ := List.mem_map.mp hm
    rw [← hq]
    exact fMax_zero_ne_nan _
  refine ⟨hstart, ?_, ?_, ?_⟩
  · intro p hp q hq
    rw [partialCmpF, if_neg]
    · rfl
    · rw [isNaN_false_of_ne (hstart p hp), isNaN_false_of_ne (hstart q hq)]
      simp
  · intro e
    cases e <;> rfl
  · intro p hnan hp
    rw [retainedF, List.mem_filter] at hp
    rw [hnan, fLt_nan_right] at hp
    exact absurd hp.2 (by simp)

/-- Witness for C10 at inputs containing NaN and infinite endpoints. -/
theorem normalize_cuts_comparator_total_witness :
    (∀ p ∈ retainedF [(F64.nan, F64.fin 5), (F64.fin 1, F64.nan),
        (F64.fin 2, F64.posInf)] (F64.fin 10), p.1 ≠ F64.nan) ∧
    (∀ p ∈ retainedF [(F64.nan, F64.fin 5), (F64.fin 1, F64.nan),
        (F64.fin 2, F64.posInf)] (F64.fin 10),
       ∀ q ∈ retainedF [(F64.nan, F64.fin 5), (F64.fin 1, F64.nan),
        (F64.fin 2, F64.posInf)] (F64.fin 10),
       (partialCmpF p.1 q.1).isSome = true) ∧
    (∀ e : F64, (clampOneF (F64.fin 10) (F64.nan, e)).1 = F64.fin 0) ∧
    (∀ p : F64 × F64, p.2 = F64.nan →
       p ∉ retainedF [(F64.nan, F64.fin 5), (F64.fin 1, F64.nan),
        (F64.fin 2, F64.posInf)] (F64.fin 10)) :=
  normalize_cuts_comparator_total
    [(F64.nan, F64.fin 5), (F64.fin 1, F64.nan), (F64.fin 2, F64.posInf)] (F64.fin 10)
